import Mathlib

/-!
Shallow embedding of the statistics-and-classification pipeline of the
book-wrap application (source: `src/App.tsx`).  The embedding covers the
record normalizer (`processCSV`'s row mapping), the year-inclusion filters
(`readIn2025`, `addedToTbr2025`), the aggregate statistics
(`totalBooks`/`totalPages`/`avgPages`/`avgRating`/`thickestBook`/`topBooks`/
`topAuthors`/`getMostActiveMonth`) and the persona classifier (`getAura`).

Modelling conventions:
* JS numbers are modelled as `ℤ` (pages, counters) and `ℚ` (ratings,
  averages); the inputs handled by the claims stay well inside the range
  where JS floats are exact.
* A JS `Date` is modelled by its observable projections `getFullYear` and
  `getMonth` (`getMonth` is always in `0..11`, hence `Fin 12`); absent date
  fields (`null`) are `Option.none`.  Date-string parsing and invalid dates
  are outside the model: every claim concerns only presence and year/month
  of dates.
* `parseInt`/`parseFloat` are modelled on decimal inputs (optional sign,
  digit prefix); leading whitespace and radix prefixes are outside the model.
* JS object iteration order is modelled faithfully for the keys that occur:
  the month-count object has integer keys `0..11`, which JS enumerates in
  ascending numeric order; the author-count object has (non-integer-like)
  string keys, which JS enumerates in insertion order, modelled by an
  insertion-ordered association list.
* `Array.prototype.sort` is stable (ES2019); a stable sort by comparator
  `cmp` is exactly `List.insertionSort` with the relation `cmp a b ≤ 0`.
-/

namespace BookWrap

/-- Observable projections of a JS `Date`: `getFullYear` and `getMonth`
(month index `0..11`, so March is month `2`). -/
structure JDate where
  year : ℤ
  month : Fin 12
deriving DecidableEq

/-- The normalized book record (`BookData` in `App.tsx`). -/
structure Book where
  title : String
  author : String
  pages : ℤ
  rating : ℚ
  dateRead : Option JDate
  dateAdded : Option JDate
  shelf : String
deriving DecidableEq

/-- Numeric value of a list of decimal digit characters. -/
def digitsToNat (cs : List Char) : ℕ :=
  cs.foldl (fun a c => a * 10 + (c.toNat - 48)) 0

/-- Longest decimal-digit prefix of a character list, as a number;
`none` when there is no leading digit. -/
def parseDigits (cs : List Char) : Option ℕ :=
  let ds := cs.takeWhile Char.isDigit
  if ds.isEmpty then none else some (digitsToNat ds)

/-- Model of JS `parseInt` on decimal inputs: optional sign followed by a
digit prefix; `none` models `NaN`.  Leading whitespace and radix prefixes
(hex) are outside the model: no claim depends on them. -/
def parseIntJS (s : String) : Option ℤ :=
  match s.data with
  | '-' :: rest => (parseDigits rest).map (fun n => -(n : ℤ))
  | '+' :: rest => (parseDigits rest).map (fun n => (n : ℤ))
  | cs => (parseDigits cs).map (fun n => (n : ℤ))

/-- Decimal significand: digits, optionally followed by `.` and more digits;
`none` when no digit occurs on either side of the point. -/
def parseDecimal (cs : List Char) : Option ℚ :=
  let ds := cs.takeWhile Char.isDigit
  let rest := cs.dropWhile Char.isDigit
  match rest with
  | '.' :: more =>
    let fs := more.takeWhile Char.isDigit
    if ds.isEmpty && fs.isEmpty then none
    else some ((digitsToNat ds : ℚ) + (digitsToNat fs : ℚ) / ((10 : ℚ) ^ fs.length))
  | _ => if ds.isEmpty then none else some ((digitsToNat ds : ℚ))

/-- Model of JS `parseFloat` on plain decimal inputs (optional sign,
digits, optional fraction); `none` models `NaN`.  Exponents and leading
whitespace are outside the model: no claim depends on them. -/
def parseFloatJS (s : String) : Option ℚ :=
  match s.data with
  | '-' :: rest => (parseDecimal rest).map (fun q => -q)
  | '+' :: rest => (parseDecimal rest).map (fun q => q)
  | cs => (parseDecimal cs).map (fun q => q)

/-- Raw Goodreads CSV row (the columns read by `processCSV`); numeric
fields are kept as raw strings, date fields as parsed optional dates. -/
structure GRow where
  title : String
  author : String
  numberOfPages : String
  myRating : String
  dateRead : Option JDate
  dateAdded : Option JDate
  exclusiveShelf : String
deriving DecidableEq

/-- Raw StoryGraph CSV row (the columns read by `processCSV`). -/
structure SRow where
  title : String
  authors : String
  pages : String
  starRating : String
  readDate : Option JDate
  readStatus : String
deriving DecidableEq

/-- Normalizer for the `goodreads` source branch of `processCSV`:
`parseInt(...) || 0` maps `NaN` to `0` (and `0` to `0`), hence `getD 0`. -/
def normalizeG (row : GRow) : Book :=
  { title := row.title
    author := row.author
    pages := (parseIntJS row.numberOfPages).getD 0
    rating := (((parseIntJS row.myRating).getD 0 : ℤ) : ℚ)
    dateRead := row.dateRead
    dateAdded := row.dateAdded
    shelf := row.exclusiveShelf }

/-- Normalizer for the `storygraph` source branch of `processCSV`:
`dateAdded` is the literal `null`, and the shelf is `read` exactly when
the status column equals `"read"`, else `to-read`. -/
def normalizeS (row : SRow) : Book :=
  { title := row.title
    author := row.authors
    pages := (parseIntJS row.pages).getD 0
    rating := (parseFloatJS row.starRating).getD 0
    dateRead := row.readDate
    dateAdded := none
    shelf := if row.readStatus == "read" then "read" else "to-read" }

/-- The `readIn2025` filter predicate: shelf must be `read`; accept when
`dateRead` has year 2025; else accept when `dateRead` is absent and
`dateAdded` has year 2025; else reject. -/
def readIn2025Filter (b : Book) : Bool :=
  if b.shelf != "read" then false
  else if b.dateRead.any (fun d => d.year == 2025) then true
  else if b.dateRead.isNone && b.dateAdded.any (fun d => d.year == 2025) then true
  else false

/-- The backfill map applied after the filter: when `dateRead` is absent
and `dateAdded` present, `dateRead` is set to `dateAdded`. -/
def backfillDateRead (b : Book) : Book :=
  if b.dateRead.isNone && b.dateAdded.isSome then { b with dateRead := b.dateAdded } else b

/-- `completedInYear`: the `readIn2025` list of `processCSV`. -/
def readIn2025 (allBooks : List Book) : List Book :=
  (allBooks.filter readIn2025Filter).map backfillDateRead

/-- The `addedToTbr2025` list of `processCSV`: shelf `to-read` and
`dateAdded` present with year 2025. -/
def addedToTbr2025 (allBooks : List Book) : List Book :=
  allBooks.filter (fun b => b.shelf == "to-read" && b.dateAdded.any (fun d => d.year == 2025))

/-- The projection of a book carried by the `thickestBook` reduce
(the reduce seed only has `title`, `author` and `pages`). -/
structure ThickInfo where
  title : String
  author : String
  pages : ℤ
deriving DecidableEq

/-- The seed of the `thickestBook` reduce: `{ title: '-', pages: 0, author: '-' }`. -/
def thickestSentinel : ThickInfo := { title := "-", author := "-", pages := 0 }

/-- Projection of a full record to the fields the reduce observes. -/
def toThick (b : Book) : ThickInfo :=
  { title := b.title, author := b.author, pages := b.pages }

/-- The reduce callback of `thickestBook`:
`(prev, current) => (prev.pages > current.pages) ? prev : current`. -/
def thickStep (prev : ThickInfo) (current : Book) : ThickInfo :=
  if prev.pages > current.pages then prev else toThick current

/-- `thickestBook`: the reduce over `readData` seeded with the sentinel. -/
def thickestBook (readData : List Book) : ThickInfo :=
  readData.foldl thickStep thickestSentinel

/-- The `topBooks` comparator `(a, b) => b.rating - a.rating`, falling back
to `b.pages - a.pages` on equal ratings. -/
def bookCmp (a b : Book) : ℚ :=
  if a.rating ≠ b.rating then b.rating - a.rating else ((b.pages - a.pages : ℤ) : ℚ)

/-- The order realized by a JS stable sort under `bookCmp`: `a` comes no
later than `b` exactly when `bookCmp a b ≤ 0`. -/
def bookLE (a b : Book) : Prop := bookCmp a b ≤ 0

/-- Characterization of the stable-sort order realized by `bookCmp`:
rating descending, ties broken by pages descending (non-strictly, so that
equal-key pairs are related both ways, as a stable sort requires). -/
theorem bookLE_iff (a b : Book) :
    bookLE a b ↔ b.rating < a.rating ∨ (a.rating = b.rating ∧ b.pages ≤ a.pages) := by
  unfold bookLE bookCmp
  by_cases h : a.rating = b.rating
  · rw [if_neg (fun hne => hne h)]
    constructor
    · intro hle
      refine Or.inr ⟨h, ?_⟩
      have h2 : ((b.pages - a.pages : ℤ) : ℚ) ≤ 0 := hle
      have h3 : (b.pages - a.pages : ℤ) ≤ 0 := by exact_mod_cast h2
      omega
    · rintro (hlt | ⟨-, hp⟩)
      · exact absurd hlt (not_lt.mpr (le_of_eq h))
      · show ((b.pages - a.pages : ℤ) : ℚ) ≤ 0
        have h3 : (b.pages - a.pages : ℤ) ≤ 0 := by omega
        exact_mod_cast h3
  · rw [if_pos h]
    rw [sub_nonpos]
    constructor
    · intro hle
      exact Or.inl (lt_of_le_of_ne hle (fun he => h he.symm))
    · rintro (hlt | ⟨he, -⟩)
      · exact le_of_lt hlt
      · exact absurd he h

instance : DecidableRel bookLE := fun a b =>
  decidable_of_iff (b.rating < a.rating ∨ (a.rating = b.rating ∧ b.pages ≤ a.pages))
    (bookLE_iff a b).symm

/-- `topBooks`: keep rated records, stable-sort by rating descending with
pages descending on ties, truncate to five. -/
def topBooks (readData : List Book) : List Book :=
  ((readData.filter (fun b => decide (0 < b.rating))).insertionSort bookLE).take 5

/-- Drop leading and trailing whitespace from a character list (the model
of `String.prototype.trim`; JS trims Unicode whitespace, of which the
claims only exercise the ASCII part). -/
def trimChars (cs : List Char) : List Char :=
  (((cs.dropWhile Char.isWhitespace).reverse).dropWhile Char.isWhitespace).reverse

/-- Author key cleanup: `book.author.split('(')[0].trim()` — everything
before the first opening parenthesis, trimmed. -/
def cleanAuthor (s : String) : String :=
  ⟨trimChars (s.data.takeWhile (fun c => c ≠ '('))⟩

/-- One step of building `authorCounts`:
`authorCounts[k] = (authorCounts[k] || 0) + 1` on a JS object whose
(non-integer-like) string keys enumerate in insertion order. -/
def bumpAuthor (acc : List (String × ℕ)) (k : String) : List (String × ℕ) :=
  if acc.any (fun q => q.1 == k) then
    acc.map (fun q => if q.1 == k then (q.1, q.2 + 1) else q)
  else acc ++ [(k, 1)]

/-- The `authorCounts` accumulation over `readData`. -/
def authorCounts (readData : List Book) : List (String × ℕ) :=
  readData.foldl (fun acc b => bumpAuthor acc (cleanAuthor b.author)) []

/-- The `topAuthors` comparator `(a, b) => b[1] - a[1]` as the stable-sort
order `cmp a b ≤ 0`. -/
def countLE (p q : String × ℕ) : Prop := (q.2 : ℤ) - (p.2 : ℤ) ≤ 0

instance : DecidableRel countLE := fun p q => by
  unfold countLE
  infer_instance

/-- `topAuthors`: entries of `authorCounts` stable-sorted by count
descending, truncated to five. -/
def topAuthors (readData : List Book) : List (String × ℕ) :=
  ((authorCounts readData).insertionSort countLE).take 5

/-- Number of records of `l` whose `dateRead` falls in month `m`
(the per-month tally of `getMostActiveMonth`). -/
def monthCount (l : List Book) (m : Fin 12) : ℕ :=
  l.countP (fun b => match b.dateRead with
    | some d => d.month == m
    | none => false)

/-- Model of `getMostActiveMonth`.  The JS month-count object has integer
keys `0..11`, which `Object.entries` enumerates in ascending numeric
order, modelled by scanning `List.finRange 12`; months with count zero
have no entry.  The `maxMonth = -1` initial sentinel together with the
strict comparison `c > maxCount` is modelled by an `Option` accumulator
that keeps the first entry and afterwards replaces only on a strictly
larger count; the returned display string is determined by the winning
`(month, count)` pair, and the `"-"` sentinel by `none`. -/
def monthEntries (l : List Book) : List (Fin 12 × ℕ) :=
  (List.finRange 12).filterMap
    (fun m => if 0 < monthCount l m then some (m, monthCount l m) else none)

/-- One step of the `forEach` maximum scan (`if (c > maxCount)`). -/
def monthStep (acc : Option (Fin 12 × ℕ)) (e : Fin 12 × ℕ) : Option (Fin 12 × ℕ) :=
  match acc with
  | none => some e
  | some a => if e.2 > a.2 then some e else some a

/-- The scan itself: empty input returns the sentinel, otherwise the
entries are scanned for the first strictly-larger count. -/
def getMostActiveMonth (l : List Book) : Option (Fin 12 × ℕ) :=
  if l.isEmpty then none else (monthEntries l).foldl monthStep none

/-- Round half toward positive infinity, the behaviour of `Math.round`. -/
def jsRound (q : ℚ) : ℤ := ⌊q + 1 / 2⌋

/-- Model of `Number.prototype.toFixed(1)` on exactly-represented inputs:
round the scaled value half away from... per the ES spec, pick the larger
candidate integer, i.e. round half up on the scaled value. -/
def toFixed1 (q : ℚ) : String :=
  let n : ℤ := ⌊q * 10 + 1 / 2⌋
  if n < 0 then
    "-" ++ toString ((-n) / 10) ++ "." ++ toString ((-n) % 10)
  else
    toString (n / 10) ++ "." ++ toString (n % 10)

/-- The `getAura` persona classifier; only the `name` field of the returned
catalog entry is modelled, since it uniquely identifies the entry.  The
source thresholds `3.8` and `4.2` are modelled as the exact rationals
`19/5` and `21/5`; double rounding of the literals is outside the model
(no claim probes values that close to a threshold). -/
def getAura (tbrCount totalBooks : ℕ) (avgPages : ℤ) (avgRatingVal : ℚ) : String :=
  if tbrCount > totalBooks * 2 ∧ tbrCount > 5 then "COZY COLLECTOR"
  else if totalBooks < 15 ∧ avgPages > 450 then "DEEP DIVER"
  else if totalBooks > 20 ∧ avgPages < 300 ∧ avgRatingVal < mkRat 19 5 then "SPEEDY SKEPTIC"
  else if avgRatingVal ≥ (4 : ℚ) ∧ avgPages > 350 then "THOROUGH ENJOYER"
  else if avgRatingVal ≥ mkRat 21 5 then "SOFT ENTHUSIAST"
  else "BALANCED REALIST"

/-- The full bundle of derived values exposed to the presentation layer. -/
structure Stats where
  totalBooks : ℕ
  totalPages : ℤ
  avgPages : ℤ
  avgRatingVal : ℚ
  avgRating : String
  thickest : ThickInfo
  topBooksList : List Book
  topAuthorsList : List (String × ℕ)
  peakMonth : Option (Fin 12 × ℕ)
  tbrCount : ℕ
  auraName : String
deriving DecidableEq

/-- The stats section of `App`: every aggregate recomputed from the
normalized book list. -/
def computeStats (allBooks : List Book) : Stats :=
  let readData := readIn2025 allBooks
  let tbr := (addedToTbr2025 allBooks).length
  let totalBooks := readData.length
  let totalPages : ℤ := (readData.map (fun b => b.pages)).sum
  let avgPages : ℤ := if totalBooks > 0 then jsRound ((totalPages : ℚ) / (totalBooks : ℚ)) else 0
  let avgRatingVal : ℚ :=
    if totalBooks > 0 then (readData.map (fun b => b.rating)).sum / (totalBooks : ℚ) else 0
  { totalBooks := totalBooks
    totalPages := totalPages
    avgPages := avgPages
    avgRatingVal := avgRatingVal
    avgRating := toFixed1 avgRatingVal
    thickest := thickestBook readData
    topBooksList := topBooks readData
    topAuthorsList := topAuthors readData
    peakMonth := getMostActiveMonth readData
    tbrCount := tbr
    auraName := getAura tbr totalBooks avgPages avgRatingVal }

/-- End-to-end pipeline on a Goodreads row set. -/
def processGoodreads (rows : List GRow) : Stats :=
  computeStats (rows.map normalizeG)

/-- End-to-end pipeline on a StoryGraph row set. -/
def processStorygraph (rows : List SRow) : Stats :=
  computeStats (rows.map normalizeS)

/-! ### Shared helper lemmas -/

/-- The year test on an optional date holds exactly for a present date of
year 2025. -/
theorem option_any_year_iff (o : Option JDate) :
    (o.any (fun d => d.year == 2025) = true) ↔ ∃ d, o = some d ∧ d.year = 2025 := by
  cases o with
  | none => simp [Option.any]
  | some d => simp [Option.any]

/-! ### C7: empty input degenerates gracefully -/

/-- C7: with an empty row set, `completedInYear` is empty and every
aggregate degenerates without error: `totalBooks = 0`, `avgPages = 0`,
`avgRating` formats to `"0.0"`, `thickestBook` is the 0-page sentinel,
`topBooks` and `topAuthors` are empty, `tbrCount = 0`, and the persona
classifier resolves to the fallback descriptor. -/
theorem emptyRows_degenerate :
    (processGoodreads []).totalBooks = 0 ∧
    (processGoodreads []).avgPages = 0 ∧
    (processGoodreads []).avgRating = "0.0" ∧
    (processGoodreads []).thickest = thickestSentinel ∧
    (processGoodreads []).thickest.pages = 0 ∧
    (processGoodreads []).topBooksList = [] ∧
    (processGoodreads []).topAuthorsList = [] ∧
    (processGoodreads []).tbrCount = 0 ∧
    (processGoodreads []).auraName = "BALANCED REALIST" := by
  refine ⟨rfl, rfl, ?_, rfl, rfl, rfl, rfl, rfl, rfl⟩
  show toFixed1 (if (0 : ℕ) > 0 then _ else 0) = "0.0"
  norm_num [toFixed1]
  rfl

/-! ### C2: persona classifier ordering -/

/-- C2 counterexample: a statistics vector satisfying both the branch-4
predicate (`avgRating ≥ 4.0` and `avgPages > 350`) and the branch-5
predicate (`avgRating ≥ 4.2`) on which the classifier nevertheless does
not return branch 4's descriptor, because the earlier branch-1 predicate
(backlog dominance) also holds and wins. -/
theorem getAura_order_counterexample :
    (mkRat 9 2 ≥ (4 : ℚ) ∧ (400 : ℤ) > 350) ∧ mkRat 9 2 ≥ mkRat 21 5 ∧
    getAura 20 1 400 (mkRat 9 2) = "COZY COLLECTOR" ∧
    getAura 20 1 400 (mkRat 9 2) ≠ "THOROUGH ENJOYER" := by
  decide

/-- C2 (amended): the classifier evaluates its predicates in a fixed order
and returns the descriptor of the first predicate that holds; for every
statistics vector satisfying both the branch-4 and branch-5 predicates and
none of the earlier predicates (branches 1–3), it returns branch 4's
descriptor, and when no predicate holds it returns the fallback. -/
theorem getAura_order_amended (tbr tb : ℕ) (ap : ℤ) (ar : ℚ)
    (h1 : ¬(tbr > tb * 2 ∧ tbr > 5))
    (h2 : ¬(tb < 15 ∧ ap > 450))
    (h3 : ¬(tb > 20 ∧ ap < 300 ∧ ar < mkRat 19 5)) :
    ((ar ≥ 4 ∧ ap > 350) → getAura tbr tb ap ar = "THOROUGH ENJOYER") ∧
    (¬(ar ≥ 4 ∧ ap > 350) → ¬(ar ≥ mkRat 21 5) → getAura tbr tb ap ar = "BALANCED REALIST") := by
  unfold getAura
  rw [if_neg h1, if_neg h2, if_neg h3]
  constructor
  · intro h4
    rw [if_pos h4]
  · intro h4 h5
    rw [if_neg h4, if_neg h5]

/-- C2 witness: both parts of the amended theorem at concrete inputs. -/
theorem getAura_order_amended_witness :
    getAura 0 10 400 (mkRat 9 2) = "THOROUGH ENJOYER" ∧
    getAura 0 10 400 1 = "BALANCED REALIST" :=
  ⟨(getAura_order_amended 0 10 400 (mkRat 9 2) (by decide) (by decide) (by decide)).1 (by decide),
   (getAura_order_amended 0 10 400 1 (by decide) (by decide) (by decide)).2 (by decide) (by decide)⟩

/-! ### C6: backlog count inclusion rule -/

/-- C6: `addedToTbr2025` holds exactly the records with shelf `to-read`
whose `dateAdded` is present with year 2025; no `dateRead` fallback
applies, and records with any other shelf are never counted. -/
theorem addedToTbr2025_spec (l : List Book) :
    (∀ b : Book, b ∈ addedToTbr2025 l ↔
      b ∈ l ∧ b.shelf = "to-read" ∧ ∃ d, b.dateAdded = some d ∧ d.year = 2025) ∧
    (∀ b ∈ l, b.shelf ≠ "to-read" → b ∉ addedToTbr2025 l) ∧
    (∀ b ∈ l, b.dateAdded = none → b ∉ addedToTbr2025 l) := by
  have hiff : ∀ b : Book, b ∈ addedToTbr2025 l ↔
      b ∈ l ∧ b.shelf = "to-read" ∧ ∃ d, b.dateAdded = some d ∧ d.year = 2025 := by
    intro b
    unfold addedToTbr2025
    rw [List.mem_filter, Bool.and_eq_true, beq_iff_eq, option_any_year_iff]
  refine ⟨hiff, ?_, ?_⟩
  · intro b _ hsh hmem
    exact hsh ((hiff b).mp hmem).2.1
  · intro b _ hda hmem
    rcases ((hiff b).mp hmem).2.2 with ⟨d, hd, -⟩
    rw [hda] at hd
    exact Option.noConfusion hd

/-- C6 witness: a concrete to-read record added in 2025 is counted and a
read-shelf record is not. -/
theorem addedToTbr2025_spec_witness :
    (⟨"T", "A", 10, 0, none, some ⟨2025, 3⟩, "to-read"⟩ : Book) ∈
      addedToTbr2025 [⟨"T", "A", 10, 0, none, some ⟨2025, 3⟩, "to-read"⟩] ∧
    (⟨"U", "B", 10, 0, none, some ⟨2025, 3⟩, "read"⟩ : Book) ∉
      addedToTbr2025 [⟨"U", "B", 10, 0, none, some ⟨2025, 3⟩, "read"⟩] :=
  ⟨((addedToTbr2025_spec [⟨"T", "A", 10, 0, none, some ⟨2025, 3⟩, "to-read"⟩]).1 _).mpr
      ⟨by decide, rfl, ⟨2025, 3⟩, rfl, rfl⟩,
   (addedToTbr2025_spec [⟨"U", "B", 10, 0, none, some ⟨2025, 3⟩, "read"⟩]).2.1 _
      (by decide) (by decide)⟩

/-! ### C10: StoryGraph rows never carry a dateAdded -/

/-- C10: every StoryGraph-normalized record has `dateAdded` absent, so the
backlog count is always zero for StoryGraph input and the `dateAdded`
fallback of the year-inclusion rule never admits a StoryGraph record: any
admitted record got in through a present `dateRead` with year 2025. -/
theorem storygraph_no_dateAdded (rows : List SRow) :
    (∀ row : SRow, (normalizeS row).dateAdded = none) ∧
    addedToTbr2025 (rows.map normalizeS) = [] ∧
    (∀ b ∈ rows.map normalizeS, readIn2025Filter b = true →
      ∃ d, b.dateRead = some d ∧ d.year = 2025) := by
  refine ⟨fun _ => rfl, ?_, ?_⟩
  · unfold addedToTbr2025
    rw [List.filter_eq_nil_iff]
    intro b hb
    rcases List.mem_map.mp hb with ⟨row, -, hrow⟩
    have hda : b.dateAdded = none := by rw [← hrow]; rfl
    simp [hda, Option.any]
  · intro b hb hfil
    rcases List.mem_map.mp hb with ⟨row, -, hrow⟩
    have hda : b.dateAdded = none := by rw [← hrow]; rfl
    unfold readIn2025Filter at hfil
    by_cases hsh : (b.shelf != "read") = true
    · rw [if_pos hsh] at hfil
      exact Bool.noConfusion hfil
    · rw [if_neg hsh] at hfil
      by_cases hyr : (b.dateRead.any (fun d => d.year == 2025)) = true
      · exact (option_any_year_iff _).mp hyr
      · rw [if_neg hyr] at hfil
        rw [hda] at hfil
        simp [Option.any] at hfil

/-- C10 witness: a concrete StoryGraph row set yields no backlog entries,
and its read-in-2025 record indeed carries a 2025 `dateRead`. -/
theorem storygraph_no_dateAdded_witness :
    addedToTbr2025 ([⟨"T", "A", "100", "4.5", some ⟨2025, 1⟩, "read"⟩].map normalizeS) = [] ∧
    ∃ d, (normalizeS ⟨"T", "A", "100", "4.5", some ⟨2025, 1⟩, "read"⟩).dateRead = some d ∧
      d.year = 2025 :=
  ⟨(storygraph_no_dateAdded [⟨"T", "A", "100", "4.5", some ⟨2025, 1⟩, "read"⟩]).2.1,
   (storygraph_no_dateAdded [⟨"T", "A", "100", "4.5", some ⟨2025, 1⟩, "read"⟩]).2.2
      (normalizeS ⟨"T", "A", "100", "4.5", some ⟨2025, 1⟩, "read"⟩)
      (List.mem_map_of_mem normalizeS (List.mem_singleton_self _)) (by decide)⟩

/-! ### C9: pages normalization -/

/-- C9 counterexample: a Goodreads row whose pages column reads `"-5"`
normalizes to the negative integer `-5`, refuting the claim that the
`pages` field is always at least 0. -/
theorem pages_nonneg_counterexample :
    (normalizeG ⟨"T", "A", "-5", "4", none, none, "read"⟩).pages = -5 ∧
    (normalizeG ⟨"T", "A", "-5", "4", none, none, "read"⟩).pages < 0 := by
  decide

/-- C9 (amended): for either source format, the `pages` field is the
integer parsed from the raw pages column, with non-numeric or missing
input normalizing to 0; it is at least 0 whenever the raw column does not
parse as a negative integer. -/
theorem pages_amended (g : GRow) (s : SRow) :
    (parseIntJS g.numberOfPages = none → (normalizeG g).pages = 0) ∧
    (∀ n, parseIntJS g.numberOfPages = some n → (normalizeG g).pages = n) ∧
    ((∀ n, parseIntJS g.numberOfPages = some n → 0 ≤ n) → 0 ≤ (normalizeG g).pages) ∧
    (parseIntJS s.pages = none → (normalizeS s).pages = 0) ∧
    (∀ n, parseIntJS s.pages = some n → (normalizeS s).pages = n) ∧
    ((∀ n, parseIntJS s.pages = some n → 0 ≤ n) → 0 ≤ (normalizeS s).pages) := by
  refine ⟨?_, ?_, ?_, ?_, ?_, ?_⟩
  · intro h
    show (parseIntJS g.numberOfPages).getD 0 = 0
    rw [h]
    rfl
  · intro n h
    show (parseIntJS g.numberOfPages).getD 0 = n
    rw [h]
    rfl
  · intro h
    show 0 ≤ (parseIntJS g.numberOfPages).getD 0
    cases hp : parseIntJS g.numberOfPages with
    | none => exact le_refl 0
    | some n => exact h n hp
  · intro h
    show (parseIntJS s.pages).getD 0 = 0
    rw [h]
    rfl
  · intro n h
    show (parseIntJS s.pages).getD 0 = n
    rw [h]
    rfl
  · intro h
    show 0 ≤ (parseIntJS s.pages).getD 0
    cases hp : parseIntJS s.pages with
    | none => exact le_refl 0
    | some n => exact h n hp

/-- C9 witness: a numeric pages column keeps its value and a non-numeric
one normalizes to 0, hence stays nonnegative. -/
theorem pages_amended_witness :
    (normalizeG ⟨"T", "A", "300", "4", none, none, "read"⟩).pages = 300 ∧
    0 ≤ (normalizeG ⟨"T", "A", "abc", "4", none, none, "read"⟩).pages :=
  ⟨(pages_amended ⟨"T", "A", "300", "4", none, none, "read"⟩
      ⟨"T", "A", "0", "0", none, "read"⟩).2.1 300 (by decide),
   (pages_amended ⟨"T", "A", "abc", "4", none, none, "read"⟩
      ⟨"T", "A", "0", "0", none, "read"⟩).2.2.1
      (fun n h => by
        rw [(by decide :
          parseIntJS (⟨"T", "A", "abc", "4", none, none, "read"⟩ : GRow).numberOfPages = none)] at h
        exact Option.noConfusion h)⟩

/-! ### C1: the dateAdded fallback of the year-inclusion rule -/

/-- C1: a record with shelf `read` and no `dateRead`, whose `dateAdded`
has year 2025, enters `completedInYear` with its `dateRead` backfilled to
`dateAdded` (so the peak-month tally counts it under `dateAdded`'s month);
and such a record with `dateAdded` also absent is excluded entirely. -/
theorem readIn2025_fallback_and_exclusion (allBooks : List Book) (b : Book)
    (hmem : b ∈ allBooks) (hsh : b.shelf = "read") (hdr : b.dateRead = none) :
    (∀ d : JDate, b.dateAdded = some d → d.year = 2025 →
      ({ b with dateRead := some d } ∈ readIn2025 allBooks ∧
        0 < monthCount (readIn2025 allBooks) d.month)) ∧
    (b.dateAdded = none → b ∉ readIn2025 allBooks) := by
  constructor
  · intro d hda hy
    have hfil : readIn2025Filter b = true := by
      unfold readIn2025Filter
      rw [if_neg (by simp [hsh])]
      rw [hdr, hda]
      simp [Option.any, hy]
    have hbf : backfillDateRead b = { b with dateRead := some d } := by
      unfold backfillDateRead
      rw [if_pos (by rw [hdr, hda]; rfl)]
      rw [hda]
    have hmem2 : { b with dateRead := some d } ∈ readIn2025 allBooks := by
      unfold readIn2025
      exact List.mem_map.mpr ⟨b, List.mem_filter.mpr ⟨hmem, hfil⟩, hbf⟩
    refine ⟨hmem2, ?_⟩
    rw [monthCount, List.countP_pos_iff]
    exact ⟨{ b with dateRead := some d }, hmem2, by simp⟩
  · intro hda hmem2
    unfold readIn2025 at hmem2
    rcases List.mem_map.mp hmem2 with ⟨x, hxf, hxb⟩
    rcases List.mem_filter.mp hxf with ⟨-, hxp⟩
    unfold backfillDateRead at hxb
    by_cases hc : (x.dateRead.isNone && x.dateAdded.isSome) = true
    · rw [if_pos hc] at hxb
      have hbd : b.dateRead = x.dateAdded := congrArg Book.dateRead hxb.symm
      rw [hdr] at hbd
      have := (Bool.and_eq_true _ _).mp hc
      rw [← hbd] at this
      simp [Option.isSome] at this
    · rw [if_neg hc] at hxb
      rw [hxb] at hxp
      unfold readIn2025Filter at hxp
      rw [if_neg (by simp [hsh])] at hxp
      rw [hdr, hda] at hxp
      simp [Option.any, Option.isNone] at hxp

/-- C1 witness: both parts at concrete records — one fallback record that
gets backfilled and counted under March, one fully dateless record that is
excluded. -/
theorem readIn2025_fallback_and_exclusion_witness :
    ((⟨"F", "f", 10, 0, some ⟨2025, 2⟩, some ⟨2025, 2⟩, "read"⟩ : Book) ∈
      readIn2025 [⟨"F", "f", 10, 0, none, some ⟨2025, 2⟩, "read"⟩] ∧
      0 < monthCount (readIn2025 [⟨"F", "f", 10, 0, none, some ⟨2025, 2⟩, "read"⟩])
        (⟨2025, 2⟩ : JDate).month) ∧
    (⟨"N", "n", 10, 0, none, none, "read"⟩ : Book) ∉
      readIn2025 [⟨"N", "n", 10, 0, none, none, "read"⟩] :=
  ⟨(readIn2025_fallback_and_exclusion
      [⟨"F", "f", 10, 0, none, some ⟨2025, 2⟩, "read"⟩]
      ⟨"F", "f", 10, 0, none, some ⟨2025, 2⟩, "read"⟩
      (by decide) rfl rfl).1 ⟨2025, 2⟩ rfl rfl,
   (readIn2025_fallback_and_exclusion
      [⟨"N", "n", 10, 0, none, none, "read"⟩]
      ⟨"N", "n", 10, 0, none, none, "read"⟩
      (by decide) rfl rfl).2 rfl⟩

/-! ### C3: thickest book -/

/-- Characterization of the `thickestBook` fold from any accumulator:
either no element ever beats the accumulator (all pages strictly below it)
and the fold returns it unchanged, or the fold returns the last element
whose pages reach the running maximum — every earlier element is at most
it, every later element strictly below it. -/
theorem thickStep_foldl_spec (l : List Book) :
    ∀ acc : ThickInfo,
      (l.foldl thickStep acc = acc ∧ ∀ b ∈ l, b.pages < acc.pages) ∨
      (∃ pre b suf, l = pre ++ b :: suf ∧ l.foldl thickStep acc = toThick b ∧
        acc.pages ≤ b.pages ∧ (∀ p ∈ pre, p.pages ≤ b.pages) ∧
        (∀ s ∈ suf, s.pages < b.pages)) := by
  induction l with
  | nil =>
    intro acc
    left
    exact ⟨rfl, by simp⟩
  | cons x rest ih =>
    intro acc
    rw [List.foldl_cons]
    by_cases hc : acc.pages > x.pages
    · rw [show thickStep acc x = acc from if_pos hc]
      rcases ih acc with ⟨heq, hall⟩ | ⟨pre, b, suf, hsplit, heq, hacc, hpre, hsuf⟩
      · left
        refine ⟨heq, ?_⟩
        intro c hc2
        rcases List.mem_cons.mp hc2 with rfl | hc2
        · exact hc
        · exact hall c hc2
      · right
        refine ⟨x :: pre, b, suf, by rw [hsplit, List.cons_append], heq, hacc, ?_, hsuf⟩
        intro p hp
        rcases List.mem_cons.mp hp with rfl | hp
        · exact le_of_lt (lt_of_lt_of_le hc hacc)
        · exact hpre p hp
    · rw [show thickStep acc x = toThick x from if_neg hc]
      push_neg at hc
      rcases ih (toThick x) with ⟨heq, hall⟩ | ⟨pre, b, suf, hsplit, heq, hacc, hpre, hsuf⟩
      · right
        exact ⟨[], x, rest, rfl, heq, hc, by simp, hall⟩
      · right
        refine ⟨x :: pre, b, suf, by rw [hsplit, List.cons_append], heq, le_trans hc hacc, ?_, hsuf⟩
        intro p hp
        rcases List.mem_cons.mp hp with rfl | hp
        · exact hacc
        · exact hpre p hp

/-- C3 counterexample: with two records tied at the maximum page count,
`thickestBook` returns the second (last) one, not the first; and the empty
sentinel's title and author are `"-"`, not empty strings. -/
theorem thickestBook_counterexample :
    thickestBook [⟨"A", "a", 100, 5, none, none, "read"⟩,
        ⟨"B", "b", 100, 4, none, none, "read"⟩] =
      toThick ⟨"B", "b", 100, 4, none, none, "read"⟩ ∧
    toThick (⟨"B", "b", 100, 4, none, none, "read"⟩ : Book) ≠
      toThick (⟨"A", "a", 100, 5, none, none, "read"⟩ : Book) ∧
    (thickestBook []).title ≠ "" ∧ (thickestBook []).author ≠ "" := by
  decide

/-- C3 (amended): `thickestBook` of an empty list is the sentinel with
title `"-"`, author `"-"` and 0 pages; its result's page count bounds
every record; and on a nonempty list of records with nonnegative page
counts it returns the LAST record attaining the maximum page count (every
earlier record is at most it, every later record strictly below it). -/
theorem thickestBook_amended (l : List Book) :
    (l = [] → thickestBook l = thickestSentinel) ∧
    (∀ b ∈ l, b.pages ≤ (thickestBook l).pages) ∧
    ((∀ b ∈ l, 0 ≤ b.pages) → l ≠ [] →
      ∃ pre b suf, l = pre ++ b :: suf ∧ thickestBook l = toThick b ∧
        (∀ p ∈ pre, p.pages ≤ b.pages) ∧ (∀ s ∈ suf, s.pages < b.pages)) := by
  refine ⟨?_, ?_, ?_⟩
  · intro h
    rw [h]
    rfl
  · intro b hb
    rcases thickStep_foldl_spec l thickestSentinel with ⟨heq, hall⟩ |
      ⟨pre, c, suf, hsplit, heq, -, hpre, hsuf⟩
    · rw [thickestBook, heq]
      exact le_of_lt (hall b hb)
    · rw [thickestBook, heq]
      rw [hsplit] at hb
      rcases List.mem_append.mp hb with hp | hcs
      · exact hpre b hp
      · rcases List.mem_cons.mp hcs with rfl | hs
        · exact le_refl _
        · exact le_of_lt (hsuf b hs)
  · intro hnn hne
    rcases thickStep_foldl_spec l thickestSentinel with ⟨-, hall⟩ |
      ⟨pre, c, suf, hsplit, heq, -, hpre, hsuf⟩
    · rcases List.exists_mem_of_ne_nil l hne with ⟨b, hb⟩
      exact absurd (hnn b hb) (not_le.mpr (hall b hb))
    · exact ⟨pre, c, suf, hsplit, heq, hpre, hsuf⟩

/-- C3 witness: the amended theorem applied to a concrete two-record tie,
returning the later record. -/
theorem thickestBook_amended_witness :
    ∃ pre b suf,
      ([⟨"A", "a", 100, 5, none, none, "read"⟩, ⟨"B", "b", 100, 4, none, none, "read"⟩] :
        List Book) = pre ++ b :: suf ∧
      thickestBook [⟨"A", "a", 100, 5, none, none, "read"⟩,
        ⟨"B", "b", 100, 4, none, none, "read"⟩] = toThick b ∧
      (∀ p ∈ pre, p.pages ≤ b.pages) ∧ (∀ s ∈ suf, s.pages < b.pages) :=
  (thickestBook_amended [⟨"A", "a", 100, 5, none, none, "read"⟩,
    ⟨"B", "b", 100, 4, none, none, "read"⟩]).2.2 (by decide) (by decide)

/-! ### C4: top books ranking -/

instance : IsTotal Book bookLE :=
  ⟨fun a b => by
    rw [bookLE_iff, bookLE_iff]
    rcases lt_trichotomy a.rating b.rating with h | h | h
    · exact Or.inr (Or.inl h)
    · rcases le_total b.pages a.pages with hp | hp
      · exact Or.inl (Or.inr ⟨h, hp⟩)
      · exact Or.inr (Or.inr ⟨h.symm, hp⟩)
    · exact Or.inl (Or.inl h)⟩

instance : IsTrans Book bookLE :=
  ⟨fun a b c hab hbc => by
    rw [bookLE_iff] at hab hbc ⊢
    rcases hab with hab | ⟨hab, hpab⟩
    · rcases hbc with hbc | ⟨hbc, -⟩
      · exact Or.inl (lt_trans hbc hab)
      · exact Or.inl (hbc ▸ hab)
    · rcases hbc with hbc | ⟨hbc, hpbc⟩
      · exact Or.inl (hab ▸ hbc)
      · exact Or.inr ⟨hab.trans hbc, le_trans hpbc hpab⟩⟩

/-- C4: `topBooks` holds only records of the input with positive rating
(unrated records never appear), is sorted by rating descending with ties
broken by pages descending, has at most five entries, and — when at most
five records are rated — holds every rated record; on the concrete books
rated `[5, 5, 4]` with pages `[100, 300, 999]` the order is
`[300/5, 100/5, 999/4]`. -/
theorem topBooks_spec (l : List Book) :
    (∀ b ∈ topBooks l, b ∈ l ∧ 0 < b.rating) ∧
    (topBooks l).length ≤ 5 ∧
    (topBooks l).Pairwise
      (fun a b => b.rating < a.rating ∨ (a.rating = b.rating ∧ b.pages ≤ a.pages)) ∧
    ((l.filter (fun b => decide (0 < b.rating))).length ≤ 5 →
      ∀ b ∈ l, 0 < b.rating → b ∈ topBooks l) ∧
    topBooks [⟨"A", "a", 100, 5, none, none, "read"⟩, ⟨"B", "b", 300, 5, none, none, "read"⟩,
        ⟨"C", "c", 999, 4, none, none, "read"⟩] =
      [⟨"B", "b", 300, 5, none, none, "read"⟩, ⟨"A", "a", 100, 5, none, none, "read"⟩,
        ⟨"C", "c", 999, 4, none, none, "read"⟩] := by
  refine ⟨?_, ?_, ?_, ?_, by decide⟩
  · intro b hb
    have hb2 : b ∈ (l.filter (fun b => decide (0 < b.rating))).insertionSort bookLE :=
      (List.take_sublist 5 _).subset hb
    have hb3 := (List.mem_insertionSort bookLE).mp hb2
    rcases List.mem_filter.mp hb3 with ⟨hbl, hp⟩
    exact ⟨hbl, of_decide_eq_true hp⟩
  · rw [topBooks, List.length_take]
    exact min_le_left 5 _
  · have hs : ((l.filter (fun b => decide (0 < b.rating))).insertionSort bookLE).Pairwise
        bookLE := List.sorted_insertionSort bookLE _
    exact (hs.sublist (List.take_sublist 5 _)).imp (fun h => (bookLE_iff _ _).mp h)
  · intro hlen b hb hr
    have hmemf : b ∈ l.filter (fun b => decide (0 < b.rating)) :=
      List.mem_filter.mpr ⟨hb, decide_eq_true hr⟩
    have hlen2 : ((l.filter (fun b => decide (0 < b.rating))).insertionSort bookLE).length ≤ 5 := by
      rw [(List.perm_insertionSort bookLE _).length_eq]
      exact hlen
    rw [topBooks, List.take_of_length_le hlen2]
    exact (List.mem_insertionSort bookLE).mpr hmemf

/-- C4 witness: the conditional completeness part at a concrete
single-record list. -/
theorem topBooks_spec_witness :
    (⟨"A", "a", 100, 5, none, none, "read"⟩ : Book) ∈
      topBooks [⟨"A", "a", 100, 5, none, none, "read"⟩] :=
  (topBooks_spec [⟨"A", "a", 100, 5, none, none, "read"⟩]).2.2.2.1 (by decide)
    ⟨"A", "a", 100, 5, none, none, "read"⟩ (by decide) (by decide)

/-! ### C5: peak month -/

/-- Membership in the month-entry list: exactly the months with a
positive tally, paired with that tally. -/
theorem mem_monthEntries (l : List Book) (m : Fin 12) (c : ℕ) :
    (m, c) ∈ monthEntries l ↔ 0 < monthCount l m ∧ c = monthCount l m := by
  unfold monthEntries
  rw [List.mem_filterMap]
  constructor
  · rintro ⟨m', -, hm⟩
    by_cases h : 0 < monthCount l m'
    · rw [if_pos h, Option.some_inj] at hm
      simp only [Prod.mk.injEq] at hm
      rcases hm with ⟨rfl, rfl⟩
      exact ⟨h, rfl⟩
    · rw [if_neg h] at hm
      exact Option.noConfusion hm
  · rintro ⟨h1, rfl⟩
    exact ⟨m, List.mem_finRange m, by rw [if_pos h1]⟩

/-- The month-entry list is in strictly ascending month order (the JS
object has integer keys, enumerated ascending). -/
theorem monthEntries_sorted (l : List Book) :
    (monthEntries l).Pairwise (fun p q => p.1 < q.1) := by
  have hkey : ∀ (m : Fin 12) (x : Fin 12 × ℕ),
      (if 0 < monthCount l m then some (m, monthCount l m) else none) = some x → x.1 = m := by
    intro m x h
    by_cases hm : 0 < monthCount l m
    · rw [if_pos hm, Option.some_inj] at h
      rw [← h]
    · rw [if_neg hm] at h
      exact Option.noConfusion h
  unfold monthEntries
  refine List.pairwise_filterMap.mpr ((List.pairwise_lt_finRange 12).imp ?_)
  intro a b hab x hx y hy
  rw [hkey a x (Option.mem_def.mp hx), hkey b y (Option.mem_def.mp hy)]
  exact hab

/-- Characterization of the maximum scan from a seeded accumulator:
either no entry strictly beats the seed and the seed survives, or the scan
returns the first entry strictly above the seed that no later entry
strictly beats — earlier entries are strictly below it, later entries at
most it. -/
theorem monthStep_foldl_spec (es : List (Fin 12 × ℕ)) :
    ∀ a : Fin 12 × ℕ,
      (es.foldl monthStep (some a) = some a ∧ ∀ e ∈ es, e.2 ≤ a.2) ∨
      (∃ pre e suf, es = pre ++ e :: suf ∧ es.foldl monthStep (some a) = some e ∧
        a.2 < e.2 ∧ (∀ p ∈ pre, p.2 < e.2) ∧ (∀ s ∈ suf, s.2 ≤ e.2)) := by
  induction es with
  | nil =>
    intro a
    left
    exact ⟨rfl, by simp⟩
  | cons x rest ih =>
    intro a
    rw [List.foldl_cons]
    by_cases hc : x.2 > a.2
    · rw [show monthStep (some a) x = some x from if_pos hc]
      rcases ih x with ⟨heq, hall⟩ | ⟨pre, e, suf, hsplit, heq, hxe, hpre, hsuf⟩
      · right
        exact ⟨[], x, rest, rfl, heq, hc, by simp, hall⟩
      · right
        refine ⟨x :: pre, e, suf, by rw [hsplit, List.cons_append], heq,
          lt_trans hc hxe, ?_, hsuf⟩
        intro p hp
        rcases List.mem_cons.mp hp with rfl | hp
        · exact hxe
        · exact hpre p hp
    · rw [show monthStep (some a) x = some a from if_neg hc]
      push_neg at hc
      rcases ih a with ⟨heq, hall⟩ | ⟨pre, e, suf, hsplit, heq, hae, hpre, hsuf⟩
      · left
        refine ⟨heq, ?_⟩
        intro e he
        rcases List.mem_cons.mp he with rfl | he
        · exact hc
        · exact hall e he
      · right
        refine ⟨x :: pre, e, suf, by rw [hsplit, List.cons_append], heq, hae, ?_, hsuf⟩
        intro p hp
        rcases List.mem_cons.mp hp with rfl | hp
        · exact lt_of_le_of_lt hc hae
        · exact hpre p hp

/-- Every record of `completedInYear` carries a `dateRead` after the
backfill, so the month scan sees every record. -/
theorem readIn2025_dateRead_isSome (allBooks : List Book) :
    ∀ b ∈ readIn2025 allBooks, b.dateRead.isSome = true := by
  intro b hb
  rcases List.mem_map.mp hb with ⟨x, hxf, hxb⟩
  rcases List.mem_filter.mp hxf with ⟨-, hxp⟩
  unfold backfillDateRead at hxb
  by_cases hc : (x.dateRead.isNone && x.dateAdded.isSome) = true
  · rw [if_pos hc] at hxb
    rcases (Bool.and_eq_true _ _).mp hc with ⟨-, hsome⟩
    rw [← hxb]
    exact hsome
  · rw [if_neg hc] at hxb
    rw [← hxb]
    by_cases hr : x.dateRead.isSome = true
    · exact hr
    · have hnone : x.dateRead = none := Option.not_isSome_iff_eq_none.mp hr
      have hda : x.dateAdded = none := by
        by_cases hds : x.dateAdded.isSome = true
        · exact absurd ((Bool.and_eq_true _ _).mpr ⟨by rw [hnone]; rfl, hds⟩) hc
        · exact Option.not_isSome_iff_eq_none.mp hds
      unfold readIn2025Filter at hxp
      rw [hnone, hda] at hxp
      by_cases hsh : (x.shelf != "read") = true
      · rw [if_pos hsh] at hxp
        exact Bool.noConfusion hxp
      · rw [if_neg hsh] at hxp
        simp [Option.any, Option.isNone] at hxp

/-- C5: `getMostActiveMonth` returns the sentinel on an empty record set;
on a nonempty set whose records all carry a `dateRead` — which every
`completedInYear` record does after backfill, per the last conjunct — it
returns a month with the highest tally together with that tally, and
every strictly smaller month number has a strictly smaller tally (on
ties, the lower month wins). -/
theorem peakMonth_spec (l : List Book) :
    (l = [] → getMostActiveMonth l = none) ∧
    (∀ allBooks : List Book, ∀ b ∈ readIn2025 allBooks, b.dateRead.isSome = true) ∧
    (l ≠ [] → (∀ b ∈ l, b.dateRead.isSome) →
      ∃ m c, getMostActiveMonth l = some (m, c) ∧ c = monthCount l m ∧ 0 < c ∧
        (∀ m' : Fin 12, monthCount l m' ≤ c) ∧
        (∀ m' : Fin 12, m' < m → monthCount l m' < c)) := by
  refine ⟨?_, readIn2025_dateRead_isSome, ?_⟩
  · intro h
    rw [h]
    rfl
  · intro hne hd
    have hempty : l.isEmpty = false := by
      cases l with
      | nil => exact absurd rfl hne
      | cons => rfl
    unfold getMostActiveMonth
    rw [if_neg (by rw [hempty]; exact Bool.false_ne_true)]
    obtain ⟨b0, hb0⟩ := List.exists_mem_of_ne_nil l hne
    obtain ⟨d0, hd0⟩ := Option.isSome_iff_exists.mp (hd b0 hb0)
    have hpos : 0 < monthCount l d0.month := by
      rw [monthCount, List.countP_pos_iff]
      refine ⟨b0, hb0, ?_⟩
      rw [hd0]
      simp
    have hmem0 : (d0.month, monthCount l d0.month) ∈ monthEntries l :=
      (mem_monthEntries l d0.month _).mpr ⟨hpos, rfl⟩
    have hentry : ∀ p ∈ monthEntries l, 0 < monthCount l p.1 ∧ p.2 = monthCount l p.1 := by
      intro p hp
      obtain ⟨m, c⟩ := p
      exact (mem_monthEntries l m c).mp hp
    obtain ⟨y, ys, hys⟩ := List.exists_cons_of_ne_nil (List.ne_nil_of_mem hmem0)
    rw [hys, List.foldl_cons, show monthStep none y = some y from rfl]
    rcases monthStep_foldl_spec ys y with ⟨heq, hall⟩ | ⟨pre, e, suf, hsplit, heq, hye, hpre, hsuf⟩
    · have hy_mem : y ∈ monthEntries l := by
        rw [hys]
        exact List.mem_cons_self y ys
      obtain ⟨hy_pos, hy_cnt⟩ := hentry y hy_mem
      have hy_pos2 : 0 < y.2 := by
        rw [hy_cnt]
        exact hy_pos
      refine ⟨y.1, y.2, by rw [heq], hy_cnt, hy_pos2, ?_, ?_⟩
      · intro m'
        by_cases hm' : 0 < monthCount l m'
        · have hmem' : (m', monthCount l m') ∈ monthEntries l :=
            (mem_monthEntries l m' _).mpr ⟨hm', rfl⟩
          rw [hys] at hmem'
          rcases List.mem_cons.mp hmem' with heq' | hmem''
          · exact le_of_eq (congrArg Prod.snd heq')
          · exact hall _ hmem''
        · rw [Nat.eq_zero_of_not_pos hm']
          exact Nat.zero_le _
      · intro m' hm'lt
        by_cases hm' : 0 < monthCount l m'
        · have hmem' : (m', monthCount l m') ∈ monthEntries l :=
            (mem_monthEntries l m' _).mpr ⟨hm', rfl⟩
          rw [hys] at hmem'
          rcases List.mem_cons.mp hmem' with heq' | hmem''
          · have : m' = y.1 := congrArg Prod.fst heq'
            rw [this] at hm'lt
            exact absurd hm'lt (lt_irrefl _)
          · have hsorted := monthEntries_sorted l
            rw [hys] at hsorted
            have : y.1 < m' := (List.pairwise_cons.mp hsorted).1 _ hmem''
            exact absurd (lt_trans hm'lt this) (lt_irrefl _)
        · rw [Nat.eq_zero_of_not_pos hm']
          exact hy_pos2
    · have hfull : monthEntries l = (y :: pre) ++ e :: suf := by
        rw [hys, hsplit, List.cons_append]
      have he_mem : e ∈ monthEntries l := by
        rw [hfull]
        exact List.mem_append.mpr (Or.inr (List.mem_cons_self e suf))
      obtain ⟨he_pos, he_cnt⟩ := hentry e he_mem
      have he_pos2 : 0 < e.2 := by
        rw [he_cnt]
        exact he_pos
      have hA : ∀ p ∈ y :: pre, p.2 < e.2 := by
        intro p hp
        rcases List.mem_cons.mp hp with rfl | hp
        · exact hye
        · exact hpre p hp
      have hsorted := monthEntries_sorted l
      rw [hfull] at hsorted
      obtain ⟨-, hpw2, hcross⟩ := List.pairwise_append.mp hsorted
      refine ⟨e.1, e.2, by rw [heq], he_cnt, he_pos2, ?_, ?_⟩
      · intro m'
        by_cases hm' : 0 < monthCount l m'
        · have hmem' : (m', monthCount l m') ∈ monthEntries l :=
            (mem_monthEntries l m' _).mpr ⟨hm', rfl⟩
          rw [hfull] at hmem'
          rcases List.mem_append.mp hmem' with hin | hin
          · exact le_of_lt (hA _ hin)
          · rcases List.mem_cons.mp hin with heq' | hin2
            · exact le_of_eq (congrArg Prod.snd heq')
            · exact hsuf _ hin2
        · rw [Nat.eq_zero_of_not_pos hm']
          exact Nat.zero_le _
      · intro m' hm'lt
        by_cases hm' : 0 < monthCount l m'
        · have hmem' : (m', monthCount l m') ∈ monthEntries l :=
            (mem_monthEntries l m' _).mpr ⟨hm', rfl⟩
          rw [hfull] at hmem'
          rcases List.mem_append.mp hmem' with hin | hin
          · exact hA _ hin
          · rcases List.mem_cons.mp hin with heq' | hin2
            · have : m' = e.1 := congrArg Prod.fst heq'
              rw [this] at hm'lt
              exact absurd hm'lt (lt_irrefl _)
            · have : e.1 < m' := (List.pairwise_cons.mp hpw2).1 _ hin2
              exact absurd (lt_trans hm'lt this) (lt_irrefl _)
        · rw [Nat.eq_zero_of_not_pos hm']
          exact he_pos2

/-- C5 witness: the nonempty part of the theorem at a concrete one-record
list read in March. -/
theorem peakMonth_spec_witness :
    ∃ m c,
      getMostActiveMonth [(⟨"F", "f", 10, 0, some ⟨2025, 2⟩, none, "read"⟩ : Book)] =
        some (m, c) ∧
      c = monthCount [(⟨"F", "f", 10, 0, some ⟨2025, 2⟩, none, "read"⟩ : Book)] m ∧ 0 < c ∧
      (∀ m' : Fin 12,
        monthCount [(⟨"F", "f", 10, 0, some ⟨2025, 2⟩, none, "read"⟩ : Book)] m' ≤ c) ∧
      (∀ m' : Fin 12, m' < m →
        monthCount [(⟨"F", "f", 10, 0, some ⟨2025, 2⟩, none, "read"⟩ : Book)] m' < c) :=
  (peakMonth_spec [⟨"F", "f", 10, 0, some ⟨2025, 2⟩, none, "read"⟩]).2.2 (by decide) (by decide)

/-! ### C8: top authors grouping -/

/-- Characterization of the stable-sort order realized by the author
comparator: count descending, non-strictly. -/
theorem countLE_iff (p q : String × ℕ) : countLE p q ↔ q.2 ≤ p.2 := by
  unfold countLE
  omega

instance : IsTotal (String × ℕ) countLE :=
  ⟨fun p q => by
    rw [countLE_iff, countLE_iff]
    omega⟩

instance : IsTrans (String × ℕ) countLE :=
  ⟨fun p q r h1 h2 => by
    rw [countLE_iff] at h1 h2 ⊢
    omega⟩

/-- The author-count accumulation has pairwise-distinct keys, holds a key
for every record's cleaned author, and each entry's value is the number of
records whose cleaned author equals its key. -/
theorem authorCounts_spec (l : List Book) :
    ((authorCounts l).map Prod.fst).Nodup ∧
    (∀ b ∈ l, cleanAuthor b.author ∈ (authorCounts l).map Prod.fst) ∧
    (∀ p ∈ authorCounts l, p.2 = l.countP (fun b => cleanAuthor b.author == p.1)) := by
  induction l using List.reverseRecOn with
  | nil => exact ⟨List.nodup_nil, by simp, by simp [authorCounts]⟩
  | append_singleton l bk ih =>
    obtain ⟨hnd, hkeys, hcnt⟩ := ih
    have hfold : authorCounts (l ++ [bk]) =
        bumpAuthor (authorCounts l) (cleanAuthor bk.author) := by
      simp [authorCounts, List.foldl_append]
    set k := cleanAuthor bk.author with hk
    set acc := authorCounts l with hacc
    have hcntapp : ∀ s : String,
        (l ++ [bk]).countP (fun b => cleanAuthor b.author == s) =
          l.countP (fun b => cleanAuthor b.author == s) + (if k = s then 1 else 0) := by
      intro s
      rw [List.countP_append]
      congr 1
      by_cases hks : k = s
      · simp [List.countP_cons, ← hk, hks]
      · simp [List.countP_cons, ← hk, hks]
    by_cases hb : acc.any (fun q => q.1 == k) = true
    · have hbump : bumpAuthor acc k = acc.map (fun q => if q.1 == k then (q.1, q.2 + 1) else q) := by
        unfold bumpAuthor
        rw [if_pos hb]
      have hkeys_eq : (acc.map (fun q => if q.1 == k then (q.1, q.2 + 1) else q)).map Prod.fst =
          acc.map Prod.fst := by
        rw [List.map_map]
        apply List.map_congr_left
        intro q _
        by_cases hqk : q.1 = k
        · simp [hqk]
        · simp [hqk]
      rw [hfold, hbump]
      refine ⟨?_, ?_, ?_⟩
      · rw [hkeys_eq]
        exact hnd
      · intro b hbmem
        rw [hkeys_eq]
        rcases List.mem_append.mp hbmem with hbl | hbr
        · exact hkeys b hbl
        · rw [List.mem_singleton.mp hbr]
          rcases List.any_eq_true.mp hb with ⟨q, hq, hqk⟩
          have hq1 : q.1 = k := by simpa using hqk
          rw [← hk, ← hq1]
          exact List.mem_map_of_mem Prod.fst hq
      · intro p hp
        rcases List.mem_map.mp hp with ⟨q, hq, hpq⟩
        by_cases hqk : (q.1 == k) = true
        · rw [if_pos hqk] at hpq
          have hq1 : q.1 = k := by simpa using hqk
          rw [← hpq]
          show q.2 + 1 = (l ++ [bk]).countP (fun b => cleanAuthor b.author == q.1)
          rw [hcntapp q.1, ← hcnt q hq, if_pos hq1.symm]
        · rw [if_neg hqk] at hpq
          rw [← hpq]
          show q.2 = (l ++ [bk]).countP (fun b => cleanAuthor b.author == q.1)
          have hq1 : ¬(k = q.1) := by
            intro h
            exact hqk (by simp [h])
          rw [hcntapp q.1, ← hcnt q hq, if_neg hq1]
          omega
    · have hbump : bumpAuthor acc k = acc ++ [(k, 1)] := by
        unfold bumpAuthor
        rw [if_neg hb]
      have hknotin : k ∉ acc.map Prod.fst := by
        intro hkin
        rcases List.mem_map.mp hkin with ⟨q, hq, hq1⟩
        exact hb (List.any_eq_true.mpr ⟨q, hq, by simp [hq1]⟩)
      rw [hfold, hbump]
      refine ⟨?_, ?_, ?_⟩
      · rw [List.map_append]
        refine List.Nodup.append hnd (List.nodup_singleton k) ?_
        intro a ha hak
        have : a = k := by simpa using hak
        rw [this] at ha
        exact hknotin ha
      · intro b hbmem
        rw [List.map_append]
        rcases List.mem_append.mp hbmem with hbl | hbr
        · exact List.mem_append_left _ (hkeys b hbl)
        · rw [List.mem_singleton.mp hbr]
          apply List.mem_append_right
          rw [← hk]
          simp
      · intro p hp
        rcases List.mem_append.mp hp with hpl | hpr
        · have hpk : ¬(k = p.1) := by
            intro h
            exact hknotin (h ▸ List.mem_map_of_mem Prod.fst hpl)
          rw [hcntapp p.1, ← hcnt p hpl, if_neg hpk]
          omega
        · rw [List.mem_singleton.mp hpr]
          show (1 : ℕ) = (l ++ [bk]).countP (fun b => cleanAuthor b.author == k)
          have hzero : l.countP (fun b => cleanAuthor b.author == k) = 0 := by
            rw [List.countP_eq_zero]
            intro b hbl hbeq
            have hce : cleanAuthor b.author = k := by simpa using hbeq
            exact hknotin (hce ▸ hkeys b hbl)
          rw [hcntapp k, hzero, if_pos rfl]

/-- C8: `authorCounts` groups records under the author key with any
parenthetical suffix stripped and whitespace trimmed — one entry per key,
in insertion order of first appearance, counting occurrences (the concrete
pair "A. Nguyen (Goodreads Author)" / "A. Nguyen" collapses to one key of
combined count 2); `topAuthors` is sorted by count descending, holds at
most five entries, and the stable sort keeps equal-count entries in their
original (first-appearance) order. -/
theorem topAuthors_spec (l : List Book) :
    (∀ p ∈ authorCounts l, p.2 = l.countP (fun b => cleanAuthor b.author == p.1)) ∧
    ((authorCounts l).map Prod.fst).Nodup ∧
    (∀ b ∈ l, cleanAuthor b.author ∈ (authorCounts l).map Prod.fst) ∧
    (topAuthors l).Pairwise (fun p q => q.2 ≤ p.2) ∧
    (topAuthors l).length ≤ 5 ∧
    (∀ p q : String × ℕ, p.2 = q.2 → List.Sublist [p, q] (authorCounts l) →
      List.Sublist [p, q] ((authorCounts l).insertionSort countLE)) ∧
    authorCounts [⟨"X", "A. Nguyen (Goodreads Author)", 100, 5, none, none, "read"⟩,
        ⟨"Y", "A. Nguyen", 200, 4, none, none, "read"⟩] = [("A. Nguyen", 2)] := by
  obtain ⟨hnd, hkeys, hcnt⟩ := authorCounts_spec l
  refine ⟨hcnt, hnd, hkeys, ?_, ?_, ?_, by decide⟩
  · have hs : ((authorCounts l).insertionSort countLE).Pairwise countLE :=
      List.sorted_insertionSort countLE _
    exact (hs.sublist (List.take_sublist 5 _)).imp (fun h => (countLE_iff _ _).mp h)
  · rw [topAuthors, List.length_take]
    exact min_le_left _ _
  · intro p q hpq hsub
    exact List.pair_sublist_insertionSort ((countLE_iff p q).mpr (le_of_eq hpq.symm)) hsub

/-- C8 witness: two equal-count authors keep their first-appearance order
through the stable sort. -/
theorem topAuthors_spec_witness :
    List.Sublist [("P", 1), ("Q", 1)]
      ((authorCounts [(⟨"X", "P", 100, 5, none, none, "read"⟩ : Book),
        ⟨"Y", "Q", 200, 4, none, none, "read"⟩]).insertionSort countLE) :=
  (topAuthors_spec [⟨"X", "P", 100, 5, none, none, "read"⟩,
    ⟨"Y", "Q", 200, 4, none, none, "read"⟩]).2.2.2.2.2.1 ("P", 1) ("Q", 1) rfl (by decide)

end BookWrap
